import Mathlib

/-!
Verification of the non-null-optional-field nexus plugin
(src/packages/@txo/non-null-optional-field-nexus-plugin/src/Api/NonNullOptionalFieldPlugin.ts).

The TypeScript source is shallowly embedded:
* GraphQL input types become `TypeRef` (named / list / non-null wrappers) plus a
  `Schema` mapping names to type definitions; a named type not present in the
  schema behaves as a scalar.
* The mutable `validationTypeCache` and the mutated `ValidationType` objects are
  modelled by an explicit state `St`: a heap of shape nodes addressed by `Nat`
  and a cache mapping type names to heap addresses.  JavaScript reference
  equality of shape objects becomes equality of heap addresses.
* `getValidationType` (the function produced by `cacheEnhancer`) becomes
  `getVT`, written with an explicit fuel argument so that it is a total,
  executable function; the theorem `getVT_terminates_of_fuel` shows that a
  fuel computable from the schema always suffices, which is the termination
  content of the original recursion.  In the source the in-progress node is
  inserted into the cache before its fields are populated; `getVT` does the
  same (the node is allocated and cached, then its `fields` are written once
  the field list is compiled - no recursive call ever reads `fields`, so the
  final state is the same).
* `validate` walks a JSON-like `Value` and returns the list of violation
  paths, in the order in which the source calls `set`; `lodash.set` and
  `JSON.stringify` are modelled by `setNull` / `stringifyEV` on the error-map
  tree `EV` (sparse array holes are `none` and stringify as "null", matching
  JavaScript).
-/

/-- Association-list lookup, first binding wins - models JS object property
lookup / the `name in cache` check. -/
def alookup {β : Type} : List (String × β) → String → Option β
  | [], _ => none
  | (k, v) :: rest, n => if k = n then some v else alookup rest n

/-- `nth l i` - positional lookup, models JS array indexing. -/
def nth {α : Type} : List α → Nat → Option α
  | [], _ => none
  | x :: _, 0 => some x
  | _ :: xs, i + 1 => nth xs i

/-- In-place update at an index (out-of-range leaves the list unchanged). -/
def setNth {α : Type} : List α → Nat → α → List α
  | [], _, _ => []
  | _ :: xs, 0, v => v :: xs
  | x :: xs, i + 1, v => x :: setNth xs i v

/-- A GraphQL input type reference: a named type possibly wrapped in
list / non-null layers. -/
inductive TypeRef where
  | named (name : String)
  | list (inner : TypeRef)
  | nonNull (inner : TypeRef)
deriving DecidableEq

/-- `getNamedType`: the name of the innermost named type. -/
def baseName : TypeRef → String
  | TypeRef.named n => n
  | TypeRef.list t => baseName t
  | TypeRef.nonNull t => baseName t

/-- One declared field of an input object: its `nonNullOptional` extension
metadata (`boolean | undefined` in TS) and its declared type. -/
structure FieldDef where
  nonNullOptional : Option Bool
  type : TypeRef
deriving DecidableEq

/-- A named type definition: an input object with declared fields, or any
other named kind (scalar, enum, ...), which compiles to an empty shape. -/
inductive TypeDef where
  | scalar
  | inputObject (fields : List (String × FieldDef))
deriving DecidableEq

/-- The schema: named type definitions, keyed by their unique names. -/
abbrev Schema := List (String × TypeDef)

/-- `ValidationConfig` of the source. -/
structure ValidationConfig where
  nonNullOptional : Option Bool
deriving DecidableEq

/-- `ValidationField` of the source; `type` is the heap address of the nested
`ValidationType` object. -/
structure ValidationField where
  config : Option ValidationConfig
  type : Nat
deriving DecidableEq

/-- A `ValidationType` object on the heap: its optional `fields` mapping. -/
structure ValidationTypeNode where
  fields : Option (List (String × ValidationField))
deriving DecidableEq

/-- The mutable state owned by the plugin closure: the `validationTypeCache`
(name to heap address) and the heap of allocated shape objects. -/
structure St where
  cache : List (String × Nat)
  heap : List ValidationTypeNode
deriving DecidableEq

/-- Truthiness filter on a field's metadata: in the source
`inputFieldMap[key].extensions?.nexus?.config?.nonNullOptional` is used as a
boolean, so only the value `true` passes. -/
def flaggedFields (fds : List (String × FieldDef)) : List (String × FieldDef) :=
  fds.filter fun p =>
    match p.2.nonNullOptional with
    | some true => true
    | _ => false

mutual

/-- `getValidationType` (source lines 71-111).  For a named type: cache hit
returns the cached address; on a miss an empty node is allocated and cached
first, then (for input objects with at least one flagged field) its `fields`
are compiled and written.  Wrappers recurse on the innermost named type.
The fuel only bounds recursion depth; `none` means fuel ran out, which
`getVT_terminates_of_fuel` shows never happens for sufficient fuel. -/
def getVT (sch : Schema) : Nat → TypeRef → St → Option (Nat × St)
  | 0, _, _ => none
  | fuel + 1, TypeRef.named n, st =>
    match alookup st.cache n with
    | some a => some (a, st)
    | none =>
      let a := st.heap.length
      let st1 : St := ⟨(n, a) :: st.cache, st.heap ++ [⟨none⟩]⟩
      match alookup sch n with
      | some (TypeDef.inputObject fds) =>
        match flaggedFields fds with
        | [] => some (a, st1)
        | f :: fs =>
          match compileFields sch fuel (f :: fs) st1 with
          | none => none
          | some (fl, st2) => some (a, ⟨st2.cache, setNth st2.heap a ⟨some fl⟩⟩)
      | _ => some (a, st1)
  | fuel + 1, TypeRef.list t, st =>
    getVT sch fuel (TypeRef.named (baseName (TypeRef.list t))) st
  | fuel + 1, TypeRef.nonNull t, st =>
    getVT sch fuel (TypeRef.named (baseName (TypeRef.nonNull t))) st

/-- The `forEach` loop of source lines 97-106: compile each flagged field's
type and record the field's own flag in its `config`. -/
def compileFields (sch : Schema) :
    Nat → List (String × FieldDef) → St → Option (List (String × ValidationField) × St)
  | _, [], st => some ([], st)
  | 0, _ :: _, _ => none
  | fuel + 1, (k, fd) :: rest, st =>
    match getVT sch fuel fd.type st with
    | none => none
    | some (a, st') =>
      match compileFields sch fuel rest st' with
      | none => none
      | some (fl, st'') => some ((k, ⟨some ⟨fd.nonNullOptional⟩, a⟩) :: fl, st'')

end

/-- The key-by-key loop of `createArgsValidationType` (source lines 116-124):
compile each argument's type, keep the argument iff its compiled shape has a
non-empty `fields` (note: argument entries get no `config`). -/
def collectArgFields (sch : Schema) (fuel : Nat) :
    List (String × TypeRef) → St → Option (List (String × ValidationField) × St)
  | [], st => some ([], st)
  | (k, t) :: rest, st =>
    match getVT sch fuel t st with
    | none => none
    | some (a, st') =>
      let keep := ((nth st'.heap a).bind ValidationTypeNode.fields).isSome
      match collectArgFields sch fuel rest st' with
      | none => none
      | some (fl, st'') =>
        some ((if keep then [(k, (⟨none, a⟩ : ValidationField))] else []) ++ fl, st'')

/-- `createArgsValidationType` (source lines 113-131): `some (none, _)` is the
source's `undefined` result ("skip validation for this operation"); otherwise
a transient shape object holding the kept argument fields is allocated. -/
def createArgsValidationType (sch : Schema) (fuel : Nat)
    (argMap : Option (List (String × TypeRef))) (st : St) : Option (Option Nat × St) :=
  match argMap with
  | none => some (none, st)
  | some args =>
    match collectArgFields sch fuel args st with
    | none => none
    | some ([], st') => some (none, st')
    | some (f :: fs, st') =>
      some (some st'.heap.length, ⟨st'.cache, st'.heap ++ [⟨some (f :: fs)⟩]⟩)

/-- `onCreateFieldResolver` (source lines 159-171): the wrapping resolver is
installed exactly when `createArgsValidationType` returns a shape; the inner
`none` means no wrapper is installed and the operation resolves untouched. -/
def onCreateFieldResolver (sch : Schema) (fuel : Nat)
    (argMap : Option (List (String × TypeRef))) (st : St) : Option (Option Nat × St) :=
  createArgsValidationType sch fuel argMap st

/-- The decimal digit characters, `d ≥ 9` clamps to `'9'` (never reached for
`d < 10`). -/
def digitChar : Nat → Char
  | 0 => '0' | 1 => '1' | 2 => '2' | 3 => '3' | 4 => '4'
  | 5 => '5' | 6 => '6' | 7 => '7' | 8 => '8' | _ => '9'

/-- Decimal digits of `n`, most significant first; structural fuel (any
`fuel > n` is exact). -/
def natToDecAux : Nat → Nat → List Char
  | 0, _ => []
  | fuel + 1, n =>
    if n < 10 then [digitChar n]
    else natToDecAux fuel (n / 10) ++ [digitChar (n % 10)]

/-- `index.toString()` for a JS array index: canonical decimal rendering. -/
def natToDec (n : Nat) : String := String.mk (natToDecAux (n + 1) n)

/-- A JSON-like runtime value, as the resolver receives its arguments.
`undef` is JavaScript `undefined` bound to a present key. -/
inductive Value where
  | null
  | undef
  | bool (b : Bool)
  | num (n : Int)
  | str (s : String)
  | arr (elems : List Value)
  | obj (entries : List (String × Value))

/-- JS truthiness of a `Value` (the `if (value && ...)` guard). -/
def truthy : Value → Bool
  | Value.null => false
  | Value.undef => false
  | Value.bool b => b
  | Value.num n => n != 0
  | Value.str s => s != ""
  | Value.arr _ => true
  | Value.obj _ => true

/-- `value === null` test. -/
def isNullV : Value → Bool
  | Value.null => true
  | _ => false

/-- `validationType.fields` read through a heap address. -/
def shapeFields (heap : List ValidationTypeNode) (a : Nat) :
    Option (List (String × ValidationField)) :=
  (nth heap a).bind ValidationTypeNode.fields

/-- `subValidationField?.config?.nonNullOptional` as a boolean. -/
def flagOf : Option ValidationField → Bool
  | some f =>
    match f.config with
    | some c =>
      match c.nonNullOptional with
      | some true => true
      | _ => false
    | none => false
  | none => false

mutual

/-- `validate` (source lines 48-64), returning the list of violation paths in
the order the source calls `set(errorMap, subPath, null)`.  The walk stops at
falsy values and absent shapes; arrays apply the same shape to each element
with the decimal index appended to the path; objects check each present key
against the shape's field and recurse. -/
def validate (heap : List ValidationTypeNode) :
    Value → Option Nat → List String → List (List String)
  | v, vt, path =>
    match vt with
    | none => []
    | some a =>
      if truthy v then
        match v with
        | Value.arr es => validateArr heap es a path 0
        | Value.obj kvs => validateObj heap kvs (shapeFields heap a) path
        | _ => []
      else []

/-- The `value.forEach((subValue, index) => ...)` loop. -/
def validateArr (heap : List ValidationTypeNode) :
    List Value → Nat → List String → Nat → List (List String)
  | [], _, _, _ => []
  | e :: rest, a, path, i =>
    validate heap e (some a) (path ++ [natToDec i]) ++ validateArr heap rest a path (i + 1)

/-- The `Object.keys(value).forEach(key => ...)` loop over the present keys. -/
def validateObj (heap : List ValidationTypeNode) :
    List (String × Value) → Option (List (String × ValidationField)) → List String →
    List (List String)
  | [], _, _ => []
  | (k, sv) :: rest, flds, path =>
    let sf := flds.bind fun l => alookup l k
    let subPath := path ++ [k]
    (if isNullV sv && flagOf sf then [subPath] else []) ++
      validate heap sv (sf.map ValidationField.type) subPath ++
      validateObj heap rest flds path

end

/-- The error-map value tree built by repeated `lodash.set(errorMap, path,
null)`: terminal `null` markers, plain objects, and arrays whose `none`
entries are JS array holes. -/
inductive EV where
  | null
  | obj (entries : List (String × EV))
  | arr (elems : List (Option EV))

/-- lodash `isIndex` on the characters of a path segment:
the regular expression (0|[1-9][0-9]*). -/
def isIndexChars : List Char → Bool
  | [] => false
  | [c] => c.isDigit
  | c :: c2 :: rest => (('1' ≤ c) && (c ≤ '9')) && (c2 :: rest).all Char.isDigit

/-- lodash `isIndex` on a path segment. -/
def isIndex (s : String) : Bool := isIndexChars s.data

/-- Numeric value of a digit string, most significant first. -/
def charsToNat (cs : List Char) : Nat :=
  cs.foldl (fun acc c => 10 * acc + (c.toNat - 48)) 0

/-- The array index denoted by a path segment, when it is one. -/
def segToIndex (s : String) : Option Nat :=
  if isIndex s then some (charsToNat s.data) else none

/-- Child of an error-map node under a path segment (`none` = absent or a
hole). -/
def evGet : EV → String → Option EV
  | EV.obj es, k => alookup es k
  | EV.arr xs, s => (segToIndex s).bind fun i => (nth xs i).bind id
  | EV.null, _ => none

/-- Assignment into an association list: replace in place or append. -/
def assocSet : List (String × EV) → String → EV → List (String × EV)
  | [], k, v => [(k, v)]
  | (k', v') :: rest, k, v =>
    if k' = k then (k, v) :: rest else (k', v') :: assocSet rest k v

/-- JS array index assignment, extending with holes (`none`) as needed. -/
def arrSet (xs : List (Option EV)) (i : Nat) (v : EV) : List (Option EV) :=
  if i < xs.length then setNth xs i (some v)
  else xs ++ List.replicate (i - xs.length) none ++ [some v]

/-- Assign a child under one path segment.  Assigning a non-index key on an
array stores a string property invisible to `JSON.stringify`, modelled as a
no-op; assigning into a terminal marker cannot happen on paths produced by
`validate` and leaves the node unchanged. -/
def evAssign : EV → String → EV → EV
  | EV.obj es, k, v => EV.obj (assocSet es k v)
  | EV.arr xs, s, v =>
    match segToIndex s with
    | some i => EV.arr (arrSet xs i v)
    | none => EV.arr xs
  | EV.null, _, _ => EV.null

/-- Is this node a container lodash would descend into (`isObject`)? -/
def isContainer : EV → Bool
  | EV.obj _ => true
  | EV.arr _ => true
  | EV.null => false

/-- `lodash.set(cur, path, null)`: walk the path, creating intermediate
containers - an array when the next segment is an index, an object
otherwise - and write the terminal `null` marker. -/
def setNull : EV → List String → EV
  | cur, [] => cur
  | cur, [seg] => evAssign cur seg EV.null
  | cur, seg :: seg2 :: rest =>
    let child :=
      match evGet cur seg with
      | some c => if isContainer c then c else (if isIndex seg2 then EV.arr [] else EV.obj [])
      | none => if isIndex seg2 then EV.arr [] else EV.obj []
    evAssign cur seg (setNull child (seg2 :: rest))

/-- The error map accumulated over one validation pass: every recorded
violation path written into an initially empty object. -/
def buildErrorMap (paths : List (List String)) : EV :=
  paths.foldl setNull (EV.obj [])

/-- JSON string quoting of a key (the keys written by this plugin are GraphQL
field names and decimal indices, which need no escapes). -/
def quote (s : String) : String := "\"" ++ s ++ "\""

mutual

/-- `JSON.stringify` of an error map; array holes print as `null`. -/
def stringifyEV : EV → String
  | EV.null => "null"
  | EV.obj es => "\x7b" ++ stringifyEntries es ++ "\x7d"
  | EV.arr xs => "[" ++ stringifyElems xs ++ "]"

/-- Comma-joined `"key":value` members of an object. -/
def stringifyEntries : List (String × EV) → String
  | [] => ""
  | [(k, v)] => quote k ++ ":" ++ stringifyEV v
  | (k, v) :: e :: rest => quote k ++ ":" ++ stringifyEV v ++ "," ++ stringifyEntries (e :: rest)

/-- One array element: a hole prints as `null`. -/
def stringifyElem : Option EV → String
  | some v => stringifyEV v
  | none => "null"

/-- Comma-joined elements of an array. -/
def stringifyElems : List (Option EV) → String
  | [] => ""
  | [x] => stringifyElem x
  | x :: e :: rest => stringifyElem x ++ "," ++ stringifyElems (e :: rest)

end

/-- `Object.keys(errorMap).length` on the root error map. -/
def rootKeyCount : EV → Nat
  | EV.obj es => es.length
  | _ => 0

/-- The installed wrapping resolver (source lines 162-169): validate the
arguments from the synthetic path `args`; a non-empty error map throws the
serialized report, otherwise the continuation `next` receives the original
root, args, context and info. -/
def fieldResolve {α γ δ ρ : Type} (heap : List ValidationTypeNode) (a : Nat)
    (root : α) (args : Value) (ctx : γ) (info : δ)
    (next : α → Value → γ → δ → ρ) : Except String ρ :=
  let errorMap := buildErrorMap (validate heap args (some a) ["args"])
  if rootKeyCount errorMap ≠ 0 then
    Except.error ("following arguments violated nonNullOptional constrain: " ++
      stringifyEV errorMap)
  else
    Except.ok (next root args ctx info)

theorem alookup_mem {β : Type} :
    ∀ (l : List (String × β)) (n : String) (v : β), alookup l n = some v → (n, v) ∈ l := by
  intro l
  induction l with
  | nil => intro n v h; simp [alookup] at h
  | cons p rest ih =>
    intro n v h
    obtain ⟨k, w⟩ := p
    simp only [alookup] at h
    split at h
    · rename_i hk
      cases h
      subst hk
      exact List.mem_cons_self _ _
    · exact List.mem_cons_of_mem _ (ih n v h)

theorem nth_append_self {α : Type} :
    ∀ (l : List α) (x : α), nth (l ++ [x]) l.length = some x := by
  intro l x
  induction l with
  | nil => rfl
  | cons y ys ih => simpa [nth] using ih

theorem nth_mem {α : Type} :
    ∀ (l : List α) (i : Nat) (x : α), nth l i = some x → x ∈ l := by
  intro l
  induction l with
  | nil => intro i x h; cases i <;> simp [nth] at h
  | cons y ys ih =>
    intro i x h
    cases i with
    | zero => cases h; exact List.mem_cons_self _ _
    | succ j => exact List.mem_cons_of_mem _ (ih j x h)

theorem setNth_length {α : Type} :
    ∀ (l : List α) (i : Nat) (v : α), (setNth l i v).length = l.length := by
  intro l
  induction l with
  | nil => intro i v; rfl
  | cons y ys ih => intro i v; cases i <;> simp [setNth, ih]

theorem nth_setNth_self {α : Type} :
    ∀ (l : List α) (i : Nat) (v : α), i < l.length → nth (setNth l i v) i = some v := by
  intro l
  induction l with
  | nil => intro i v h; simp at h
  | cons y ys ih =>
    intro i v h
    cases i with
    | zero => rfl
    | succ j => exact ih j v (by simpa using h)

/-- Cache growth: every existing binding is preserved. -/
def CacheLe (c c' : List (String × Nat)) : Prop :=
  ∀ m x, alookup c m = some x → alookup c' m = some x

theorem cacheLe_refl (c : List (String × Nat)) : CacheLe c c := fun _ _ h => h

theorem cacheLe_trans {a b c : List (String × Nat)} (h1 : CacheLe a b) (h2 : CacheLe b c) :
    CacheLe a c := fun m x h => h2 m x (h1 m x h)

theorem cacheLe_cons_fresh {c : List (String × Nat)} {n : String} {a : Nat}
    (h : alookup c n = none) : CacheLe c ((n, a) :: c) := by
  intro m x hm
  simp only [alookup]
  split
  · rename_i he
    subst he
    rw [h] at hm
    cases hm
  · exact hm

/-- State evolution of one compiler step: the cache only gains bindings and
the heap only grows. -/
def Progress (st st' : St) : Prop :=
  CacheLe st.cache st'.cache ∧ st.heap.length ≤ st'.heap.length

theorem progress_refl (st : St) : Progress st st := ⟨cacheLe_refl _, Nat.le_refl _⟩

theorem progress_trans {a b c : St} (h1 : Progress a b) (h2 : Progress b c) : Progress a c :=
  ⟨cacheLe_trans h1.1 h2.1, Nat.le_trans h1.2 h2.2⟩

theorem getVT_progress (sch : Schema) :
    ∀ fuel : Nat,
      (∀ t st a st', getVT sch fuel t st = some (a, st') → Progress st st') ∧
      (∀ fds st fl st', compileFields sch fuel fds st = some (fl, st') → Progress st st') := by
  intro fuel
  induction fuel with
  | zero =>
    constructor
    · intro t st a st' h; simp [getVT] at h
    · intro fds st fl st' h
      cases fds with
      | nil =>
        simp only [compileFields, Option.some.injEq, Prod.mk.injEq] at h
        rw [← h.2]
        exact progress_refl st
      | cons p rest => simp [compileFields] at h
  | succ f ih =>
    constructor
    · intro t st a st' h
      cases t with
      | named n =>
        simp only [getVT] at h
        split at h
        · cases h
          exact progress_refl st
        · rename_i hmiss
          split at h
          · split at h
            · cases h
              exact ⟨cacheLe_cons_fresh hmiss, by simp⟩
            · split at h
              · cases h
              · rename_i fl st2 hcf
                cases h
                refine progress_trans (b := ⟨(n, st.heap.length) :: st.cache, st.heap ++ [⟨none⟩]⟩)
                  ⟨cacheLe_cons_fresh hmiss, by simp⟩ (progress_trans (ih.2 _ _ _ _ hcf) ?_)
                exact ⟨cacheLe_refl _, by simp [setNth_length]⟩
          · cases h
            exact ⟨cacheLe_cons_fresh hmiss, by simp⟩
      | list t' => exact ih.1 _ _ _ _ h
      | nonNull t' => exact ih.1 _ _ _ _ h
    · intro fds st fl st' h
      cases fds with
      | nil =>
        simp only [compileFields, Option.some.injEq, Prod.mk.injEq] at h
        rw [← h.2]
        exact progress_refl st
      | cons p rest =>
        obtain ⟨k, fd⟩ := p
        simp only [compileFields] at h
        split at h
        · cases h
        · rename_i a1 st1 hvt
          split at h
          · cases h
          · rename_i fl1 st2 hcf
            cases h
            exact progress_trans (ih.1 _ _ _ _ hvt) (ih.2 _ _ _ _ hcf)

/-- After a successful compilation the cache binds the innermost type name to
the returned address ("keyed by the innermost named type"). -/
theorem getVT_cache_binds (sch : Schema) :
    ∀ fuel t st a st', getVT sch fuel t st = some (a, st') →
      alookup st'.cache (baseName t) = some a := by
  intro fuel
  induction fuel with
  | zero => intro t st a st' h; simp [getVT] at h
  | succ f ih =>
    intro t st a st' h
    cases t with
    | named n =>
      simp only [getVT] at h
      split at h
      · rename_i a0 hhit
        cases h
        exact hhit
    
      · rename_i hmiss
        have hself : alookup ((n, st.heap.length) :: st.cache) n = some st.heap.length := by
          simp [alookup]
        split at h
        · split at h
          · cases h
            exact hself
          · split at h
            · cases h
            · rename_i fl st2 hcf
              cases h
              exact ((getVT_progress sch f).2 _ _ _ _ hcf).1 _ _ hself
        · cases h
          exact hself
    | list t' => simpa [baseName] using ih _ _ _ _ h
    | nonNull t' => simpa [baseName] using ih _ _ _ _ h

/-- Number of flagged fields of the named type `n` (0 for scalars and unknown
names). -/
def flagCount (sch : Schema) (n : String) : Nat :=
  match alookup sch n with
  | some (TypeDef.inputObject fds) => (flaggedFields fds).length
  | _ => 0

/-- Fuel cost of compiling the named type `n` once: one step to enter plus
two steps per flagged field. -/
def weight (sch : Schema) (n : String) : Nat := 2 * flagCount sch n + 2

/-- Total fuel cost of the names of `allN` not yet in the cache. -/
def potential (sch : Schema) (allN : List String) (cache : List (String × Nat)) : Nat :=
  ((allN.dedup.filter fun m => (alookup cache m).isNone).map (weight sch)).sum

theorem sum_filter_mono {w : String → Nat} {p q : String → Bool} :
    ∀ l : List String, (∀ m ∈ l, q m = true → p m = true) →
      ((l.filter q).map w).sum ≤ ((l.filter p).map w).sum := by
  intro l
  induction l with
  | nil => intro _; simp
  | cons x xs ih =>
    intro h
    have hxs : ∀ m ∈ xs, q m = true → p m = true := fun m hm => h m (List.mem_cons_of_mem _ hm)
    by_cases hq : q x = true
    · have hp : p x = true := h x (List.mem_cons_self _ _) hq
      simp only [List.filter_cons, hq, hp, if_true, List.map_cons, List.sum_cons]
      exact Nat.add_le_add_left (ih hxs) _
    · by_cases hp : p x = true
      · simp only [List.filter_cons, hq, hp, if_true, if_false, List.map_cons, List.sum_cons]
        exact Nat.le_trans (ih hxs) (Nat.le_add_left _ _)
      · simp only [List.filter_cons, hq, hp, if_false]
        exact ih hxs

theorem sum_filter_drop {w : String → Nat} {p : String → Bool} {n : String} :
    ∀ l : List String, l.Nodup → n ∈ l → p n = true →
      ((l.filter fun m => if n = m then false else p m).map w).sum + w n =
        ((l.filter p).map w).sum := by
  intro l
  induction l with
  | nil => intro _ h; simp at h
  | cons x xs ih =>
    intro hnd hmem hpn
    have hnd' : xs.Nodup := (List.nodup_cons.mp hnd).2
    have hx : x ∉ xs := (List.nodup_cons.mp hnd).1
    by_cases hex : n = x
    · subst hex
      have hcong : (xs.filter fun m => if n = m then false else p m) = xs.filter p := by
        apply List.filter_congr
        intro m hm
        have : ¬ n = m := fun he => hx (he ▸ hm)
        simp [this]
      simp only [List.filter_cons, if_neg, hpn, if_true]
      rw [hcong]
      simp only [if_pos rfl, List.map_cons, List.sum_cons]
      exact Nat.add_comm _ _
    · have hmem' : n ∈ xs := by
        cases List.mem_cons.mp hmem with
        | inl h => exact absurd h hex
        | inr h => exact h
      by_cases hp : p x = true
      · simp only [List.filter_cons, hp, if_true, if_neg hex, List.map_cons, List.sum_cons]
        rw [Nat.add_assoc]
        rw [ih hnd' hmem' hpn]
      · simp only [List.filter_cons, hp, if_false, if_neg hex]
        exact ih hnd' hmem' hpn

theorem potential_cons (sch : Schema) (allN : List String) (c : List (String × Nat))
    (n : String) (a : Nat) (hn : n ∈ allN) (hnone : alookup c n = none) :
    potential sch allN ((n, a) :: c) + weight sch n = potential sch allN c := by
  unfold potential
  have hfun : (fun m => (alookup ((n, a) :: c) m).isNone) =
      fun m => if n = m then false else (alookup c m).isNone := by
    funext m
    simp only [alookup]
    split <;> simp
  rw [hfun]
  exact sum_filter_drop _ (List.nodup_dedup _) (List.mem_dedup.mpr hn) (by simp [hnone])

theorem potential_mono (sch : Schema) (allN : List String) {c c' : List (String × Nat)}
    (h : CacheLe c c') : potential sch allN c' ≤ potential sch allN c := by
  apply sum_filter_mono
  intro m _ hq
  cases hc : alookup c m with
  | none => simp
  | some x =>
    rw [h m x hc] at hq
    simp at hq

theorem getVT_total (sch : Schema) (allN : List String)
    (hclo : ∀ n fds, alookup sch n = some (TypeDef.inputObject fds) →
      ∀ fd ∈ fds, baseName fd.2.type ∈ allN) :
    ∀ fuel : Nat,
      (∀ n st, n ∈ allN → potential sch allN st.cache + 2 ≤ fuel →
        (getVT sch fuel (TypeRef.named n) st).isSome = true) ∧
      (∀ t st, baseName t ∈ allN → potential sch allN st.cache + 3 ≤ fuel →
        (getVT sch fuel t st).isSome = true) ∧
      (∀ fds st, (∀ fd ∈ fds, baseName fd.2.type ∈ allN) →
        potential sch allN st.cache + 2 * fds.length + 2 ≤ fuel →
        (compileFields sch fuel fds st).isSome = true) := by
  intro fuel
  induction fuel using Nat.strong_induction_on with
  | _ fuel ih =>
    have hnamed : ∀ n st, n ∈ allN → potential sch allN st.cache + 2 ≤ fuel →
        (getVT sch fuel (TypeRef.named n) st).isSome = true := by
      intro n st hn hfuel
      obtain ⟨f, rfl⟩ : ∃ f, fuel = f + 1 := ⟨fuel - 1, by omega⟩
      simp only [getVT]
      cases hc : alookup st.cache n with
      | some a => simp
      | none =>
        cases hs : alookup sch n with
        | none => simp
        | some td =>
          cases td with
          | scalar => simp
          | inputObject fds =>
            cases hf : flaggedFields fds with
            | nil => simp [hf]
            | cons f0 fs0 =>
                have hpot : potential sch allN ((n, st.heap.length) :: st.cache) +
                    (2 * flagCount sch n + 2) = potential sch allN st.cache :=
                  potential_cons sch allN st.cache n st.heap.length hn hc
                have hcount : flagCount sch n = (f0 :: fs0).length := by
                  simp [flagCount, hs, hf]
                have hnames : ∀ fd ∈ (f0 :: fs0), baseName fd.2.type ∈ allN := by
                  intro fd hfd
                  have : fd ∈ fds := by
                    have := hf ▸ hfd
                    exact List.mem_of_mem_filter this
                  exact hclo n fds hs fd this
                have hcf := (ih f (Nat.lt_succ_self f)).2.2 (f0 :: fs0)
                  ⟨(n, st.heap.length) :: st.cache, st.heap ++ [⟨none⟩]⟩ hnames
                  (by simp only []; omega)
                obtain ⟨⟨fl, st2⟩, hcfe⟩ := Option.isSome_iff_exists.mp hcf
                simp [hf, hcfe]
    refine ⟨hnamed, ?_, ?_⟩
    · intro t st hb hfuel
      cases t with
      | named n => exact hnamed n st hb (by omega)
      | list t' =>
        obtain ⟨f, rfl⟩ : ∃ f, fuel = f + 1 := ⟨fuel - 1, by omega⟩
        simp only [getVT]
        exact (ih f (Nat.lt_succ_self f)).1 _ st hb (by omega)
      | nonNull t' =>
        obtain ⟨f, rfl⟩ : ∃ f, fuel = f + 1 := ⟨fuel - 1, by omega⟩
        simp only [getVT]
        exact (ih f (Nat.lt_succ_self f)).1 _ st hb (by omega)
    · intro fds st hnames hfuel
      cases fds with
      | nil =>
        cases fuel <;> simp [compileFields]
      | cons p rest =>
        obtain ⟨k, fd⟩ := p
        obtain ⟨f, rfl⟩ : ∃ f, fuel = f + 1 := ⟨fuel - 1, by simp at hfuel; omega⟩
        simp only [compileFields]
        have hvt := (ih f (Nat.lt_succ_self f)).2.1 fd.type st
          (hnames (k, fd) (List.mem_cons_self _ _)) (by simp at hfuel ⊢; omega)
        obtain ⟨⟨a1, st1⟩, hvte⟩ := Option.isSome_iff_exists.mp hvt
        have hpm : potential sch allN st1.cache ≤ potential sch allN st.cache :=
          potential_mono sch allN ((getVT_progress sch f).1 _ _ _ _ hvte).1
        have hcf := (ih f (Nat.lt_succ_self f)).2.2 rest st1
          (fun fd' hfd' => hnames fd' (List.mem_cons_of_mem _ hfd'))
          (by simp at hfuel ⊢; omega)
        obtain ⟨⟨fl1, st2⟩, hcfe⟩ := Option.isSome_iff_exists.mp hcf
        simp [hvte, hcfe]

/-- Base names of all field types declared anywhere in the schema. -/
def fieldBaseNames (sch : Schema) : List String :=
  sch.foldr (fun p acc =>
    (match p.2 with
     | TypeDef.inputObject fds => fds.map fun q => baseName q.2.type
     | TypeDef.scalar => []) ++ acc) []

/-- Every name the compilation of `t` can ever touch. -/
def reachNames (sch : Schema) (t : TypeRef) : List String := baseName t :: fieldBaseNames sch

theorem mem_fieldBaseNames {sch : Schema} {n : String} {fds : List (String × FieldDef)}
    (hmem : (n, TypeDef.inputObject fds) ∈ sch) :
    ∀ fd ∈ fds, baseName fd.2.type ∈ fieldBaseNames sch := by
  induction sch with
  | nil => simp at hmem
  | cons p rest ih =>
    intro fd hfd
    cases List.mem_cons.mp hmem with
    | inl h =>
      subst h
      simp only [fieldBaseNames, List.foldr_cons]
      exact List.mem_append_left _ (List.mem_map.mpr ⟨fd, hfd, rfl⟩)
    | inr h =>
      simp only [fieldBaseNames, List.foldr_cons]
      exact List.mem_append_right _ (ih h fd hfd)

theorem reachNames_closed (sch : Schema) (t : TypeRef) :
    ∀ n fds, alookup sch n = some (TypeDef.inputObject fds) →
      ∀ fd ∈ fds, baseName fd.2.type ∈ reachNames sch t := by
  intro n fds hl fd hfd
  exact List.mem_cons_of_mem _ (mem_fieldBaseNames (alookup_mem sch n _ hl) fd hfd)

/-- The shape of every compiled field mirrors the flagged input fields:
same keys in order, each `config` recording the field's own flag. -/
theorem compileFields_spec (sch : Schema) :
    ∀ fuel fds st fl st', compileFields sch fuel fds st = some (fl, st') →
      fl.map (fun e => (e.1, e.2.config)) =
        fds.map fun q => (q.1, some (⟨q.2.nonNullOptional⟩ : ValidationConfig)) := by
  intro fuel
  induction fuel with
  | zero =>
    intro fds st fl st' h
    cases fds with
    | nil =>
      simp only [compileFields, Option.some.injEq, Prod.mk.injEq] at h
      simp [← h.1]
    | cons p rest => simp [compileFields] at h
  | succ f ih =>
    intro fds st fl st' h
    cases fds with
    | nil =>
      simp only [compileFields, Option.some.injEq, Prod.mk.injEq] at h
      simp [← h.1]
    | cons p rest =>
      obtain ⟨k, fd⟩ := p
      simp only [compileFields] at h
      split at h
      · cases h
      · rename_i a1 st1 hvt
        split at h
        · cases h
        · rename_i fl1 st2 hcf
          cases h
          simp [ih _ _ _ _ hcf]

/-- C4: compiling the validation shape of any type - in particular a
self-referential named input type, whose fields reference the same named type
directly or transitively - terminates: any fuel of at least
`potential + 3` (the weighted count of not-yet-cached reachable names)
makes `getVT` return a result, because a name is inserted into the cache
before its fields are compiled, so the recursive lookup hits the cache
instead of recursing unboundedly. -/
theorem getVT_terminates_of_fuel :
    ∀ (sch : Schema) (t : TypeRef) (st : St) (fuel : Nat),
      potential sch (reachNames sch t) st.cache + 3 ≤ fuel →
      (getVT sch fuel t st).isSome = true := by
  intro sch t st fuel h
  exact (getVT_total sch (reachNames sch t) (reachNames_closed sch t) fuel).2.1 t st
    (by simp [reachNames]) h

/-- A self-referential input type: `A.self : [A]`, with the constraint flag. -/
def schSelf : Schema :=
  [("A", TypeDef.inputObject [("self", ⟨some true, TypeRef.list (TypeRef.named "A")⟩)])]

theorem getVT_terminates_of_fuel_witness :
    potential schSelf (reachNames schSelf (TypeRef.named "A")) (⟨[], []⟩ : St).cache + 3 ≤ 9 ∧
    (getVT schSelf 9 (TypeRef.named "A") ⟨[], []⟩).isSome = true :=
  ⟨by decide, getVT_terminates_of_fuel schSelf (TypeRef.named "A") ⟨[], []⟩ 9 (by decide)⟩

/-- C5: shape compilation is reference-stable and wrapper-invariant.  After a
compilation of `t0` returned address `a`, compiling any type with the same
innermost name - the named type itself or any list/non-null wrapping of it -
returns the same address `a` with the state unchanged: the cache is keyed
only by the innermost type name. -/
theorem getVT_cached_stable :
    ∀ (sch : Schema) (fuel : Nat) (t0 : TypeRef) (st st₁ : St) (a : Nat),
      getVT sch fuel t0 st = some (a, st₁) →
      ∀ (w : TypeRef) (f : Nat), baseName w = baseName t0 →
        getVT sch (f + 2) w st₁ = some (a, st₁) := by
  intro sch fuel t0 st st₁ a h w f hw
  have hb : alookup st₁.cache (baseName t0) = some a := getVT_cache_binds sch fuel t0 st a st₁ h
  cases w with
  | named n =>
    simp only [baseName] at hw
    subst hw
    show getVT sch (f + 1 + 1) (TypeRef.named (baseName t0)) st₁ = some (a, st₁)
    simp [getVT, hb]
  | list t' =>
    show getVT sch (f + 1 + 1) (TypeRef.list t') st₁ = some (a, st₁)
    simp only [getVT]
    rw [hw]
    simp [getVT, hb]
  | nonNull t' =>
    show getVT sch (f + 1 + 1) (TypeRef.nonNull t') st₁ = some (a, st₁)
    simp only [getVT]
    rw [hw]
    simp [getVT, hb]

/-- The state after the first compilation of `A` in `schSelf`. -/
def stSelf : St :=
  ⟨[("A", 0)], [⟨some [("self", ⟨some ⟨some true⟩, 0⟩)]⟩]⟩

theorem getVT_cached_stable_witness :
    getVT schSelf 6 (TypeRef.nonNull (TypeRef.list (TypeRef.named "A"))) stSelf =
      some (0, stSelf) :=
  getVT_cached_stable schSelf 5 (TypeRef.named "A") ⟨[], []⟩ stSelf 0 (by decide)
    (TypeRef.nonNull (TypeRef.list (TypeRef.named "A"))) 4 (by decide)

/-- `A.f : B` without the flag, `B.g : Str` with it: compiling `A` yields an
empty shape although `B`'s compiled shape is non-empty. -/
def exSch : Schema :=
  [("A", TypeDef.inputObject [("f", ⟨none, TypeRef.named "B"⟩)]),
   ("B", TypeDef.inputObject [("g", ⟨some true, TypeRef.named "Str"⟩)])]

/-- C1 counterexample: the claim's second disjunct fails on the code.  Field
`f` of `A` carries no flag but its type `B` compiles to a non-empty shape;
nevertheless `A`'s compiled shape has no `fields` at all (`getValidationType`
filters only on the field's own flag, source lines 91-93), so `f` is absent
from the shape. -/
theorem c1_flag_only_counterexample :
    getVT exSch 10 (TypeRef.named "A") ⟨[], []⟩ = some (0, ⟨[("A", 0)], [⟨none⟩]⟩) ∧
    ((nth ([⟨none⟩] : List ValidationTypeNode) 0).bind ValidationTypeNode.fields) = none ∧
    getVT exSch 10 (TypeRef.named "B") ⟨[], []⟩ =
      some (0, ⟨[("Str", 1), ("B", 0)], [⟨some [("g", ⟨some ⟨some true⟩, 1⟩)]⟩, ⟨none⟩]⟩) ∧
    ((nth ([⟨some [("g", ⟨some ⟨some true⟩, 1⟩)]⟩, ⟨none⟩] : List ValidationTypeNode) 0).bind
        ValidationTypeNode.fields).isSome = true := by
  refine ⟨by decide, by decide, by decide, by decide⟩

/-- C1 (amended): for a named input-object type, the compiled shape contains
an entry exactly for each declared field that carries the `nonNullOptional`
flag (in declaration order, each entry's `config` recording the field's own
flag); a field without the flag is omitted even when its nested type's
compiled shape is non-empty, and with no flagged fields at all the shape's
`fields` stays absent. -/
theorem getVT_fields_exactly_flagged :
    ∀ (sch : Schema) (fuel : Nat) (n : String) (st : St) (a : Nat) (st' : St)
      (fds : List (String × FieldDef)),
      alookup st.cache n = none →
      alookup sch n = some (TypeDef.inputObject fds) →
      getVT sch (fuel + 1) (TypeRef.named n) st = some (a, st') →
      ∃ nd, nth st'.heap a = some nd ∧
        (flaggedFields fds = [] → nd.fields = none) ∧
        (flaggedFields fds ≠ [] →
         ∃ fl, nd.fields = some fl ∧
            fl.map (fun e => (e.1, e.2.config)) =
              (flaggedFields fds).map fun q =>
                (q.1, some (⟨q.2.nonNullOptional⟩ : ValidationConfig))) := by
  intro sch fuel n st a st' fds hc hs h
  simp only [getVT] at h
  split at h
  · rename_i a0 heq
    rw [hc] at heq
    cases heq
  · split at h
    · rename_i fds' heq
      rw [hs] at heq
      injection heq with heq'
      injection heq' with heq''
      subst heq''
      split at h
      · rename_i heqf
        simp only [Option.some.injEq, Prod.mk.injEq] at h
        obtain ⟨ha, hst⟩ := h
        subst ha
        rw [← hst, heqf]
        exact ⟨⟨none⟩, nth_append_self _ _, fun _ => rfl, fun hne => absurd rfl hne⟩
      · rename_i f0 fs0 heqf
        split at h
        · cases h
        · rename_i fl st2 hcf
          simp only [Option.some.injEq, Prod.mk.injEq] at h
          obtain ⟨ha, hst⟩ := h
          subst ha
          rw [← hst, heqf]
          have hlen : st.heap.length < st2.heap.length := by
            have hp := ((getVT_progress sch fuel).2 _ _ _ _ hcf).2
            simp at hp
            omega
          refine ⟨⟨some fl⟩, by simpa using nth_setNth_self _ _ _ hlen,
            fun h0 => List.noConfusion h0, fun _ => ⟨fl, rfl, ?_⟩⟩
          rw [compileFields_spec sch fuel _ _ _ _ hcf]
    · rename_i hne
      exfalso
      exact hne fds hs

theorem getVT_fields_exactly_flagged_witness :
    ∃ nd, nth (⟨[("Str", 1), ("B", 0)],
        [⟨some [("g", ⟨some ⟨some true⟩, 1⟩)]⟩, ⟨none⟩]⟩ : St).heap 0 = some nd ∧
      (flaggedFields [("g", ⟨some true, TypeRef.named "Str"⟩)] = [] → nd.fields = none) ∧
      (flaggedFields [("g", ⟨some true, TypeRef.named "Str"⟩)] ≠ [] →
       ∃ fl, nd.fields = some fl ∧
          fl.map (fun e => (e.1, e.2.config)) =
            (flaggedFields [("g", ⟨some true, TypeRef.named "Str"⟩)]).map fun q =>
              (q.1, some (⟨q.2.nonNullOptional⟩ : ValidationConfig))) :=
  getVT_fields_exactly_flagged exSch 9 "B" ⟨[], []⟩ 0
    ⟨[("Str", 1), ("B", 0)], [⟨some [("g", ⟨some ⟨some true⟩, 1⟩)]⟩, ⟨none⟩]⟩
    [("g", ⟨some true, TypeRef.named "Str"⟩)] (by decide) (by decide) (by decide)

theorem digitChar_isDigit : ∀ d : Nat, (digitChar d).isDigit = true := by
  intro d
  match d with
  | 0 | 1 | 2 | 3 | 4 | 5 | 6 | 7 | 8 => decide
  | n + 9 => rfl

theorem digitChar_val : ∀ d : Nat, d < 10 → (digitChar d).toNat - 48 = d := by
  intro d h
  match d, h with
  | 0, _ | 1, _ | 2, _ | 3, _ | 4, _ | 5, _ | 6, _ | 7, _ | 8, _ | 9, _ => decide
  | n + 10, h => exact absurd h (by omega)

theorem digitChar_pos_range : ∀ d : Nat, 1 ≤ d → d < 10 →
    ('1' ≤ digitChar d ∧ digitChar d ≤ '9') := by
  intro d h1 h2
  match d, h1, h2 with
  | 1, _, _ | 2, _, _ | 3, _, _ | 4, _, _ | 5, _, _ | 6, _, _ | 7, _, _ | 8, _, _ | 9, _, _ =>
    exact ⟨by decide, by decide⟩
  | n + 10, _, h2 => exact absurd h2 (by omega)

theorem natToDecAux_spec :
    ∀ fuel n, n < fuel →
      ∃ c cs, natToDecAux fuel n = c :: cs ∧
        c.isDigit = true ∧ cs.all Char.isDigit = true ∧
        (1 ≤ n → ('1' ≤ c ∧ c ≤ '9')) ∧
        (n = 0 → c = '0' ∧ cs = []) := by
  intro fuel
  induction fuel with
  | zero => intro n h; omega
  | succ f ih =>
    intro n h
    by_cases h10 : n < 10
    · refine ⟨digitChar n, [], by simp [natToDecAux, h10], digitChar_isDigit n, rfl, ?_, ?_⟩
      · intro h1; exact digitChar_pos_range n h1 h10
      · intro h0; subst h0; exact ⟨rfl, rfl⟩
    · have hdiv : n / 10 < f := by
        have h1 := Nat.div_lt_self (by omega : 0 < n) (by omega : 1 < 10)
        omega
      obtain ⟨c, cs, heq, hdig, hall, hpos, _⟩ := ih (n / 10) hdiv
      refine ⟨c, cs ++ [digitChar (n % 10)], ?_, hdig, ?_, ?_, ?_⟩
      · simp [natToDecAux, h10, heq]
      · simp [List.all_append, hall, digitChar_isDigit]
      · intro _
        exact hpos (Nat.le_div_iff_mul_le (by omega) |>.mpr (by omega))
      · intro h0; omega

theorem charsToNat_append (cs : List Char) (c : Char) :
    charsToNat (cs ++ [c]) = 10 * charsToNat cs + (c.toNat - 48) := by
  simp [charsToNat, List.foldl_append]

theorem charsToNat_natToDecAux : ∀ fuel n, n < fuel → charsToNat (natToDecAux fuel n) = n := by
  intro fuel
  induction fuel with
  | zero => intro n h; omega
  | succ f ih =>
    intro n h
    by_cases h10 : n < 10
    · have : charsToNat [digitChar n] = (digitChar n).toNat - 48 := by
        simp [charsToNat]
      simp [natToDecAux, h10, this, digitChar_val n h10]
    · have hdiv : n / 10 < f := by
        have h1 := Nat.div_lt_self (by omega : 0 < n) (by omega : 1 < 10)
        omega
      have hmod : (digitChar (n % 10)).toNat - 48 = n % 10 :=
        digitChar_val _ (Nat.mod_lt _ (by omega))
      simp [natToDecAux, h10, charsToNat_append, ih (n / 10) hdiv, hmod]
      omega

theorem isIndex_natToDec (n : Nat) : isIndex (natToDec n) = true := by
  obtain ⟨c, cs, heq, hdig, hall, hpos, hz⟩ := natToDecAux_spec (n + 1) n (Nat.lt_succ_self n)
  show isIndexChars (String.mk (natToDecAux (n + 1) n)).data = true
  rw [show (String.mk (natToDecAux (n + 1) n)).data = natToDecAux (n + 1) n from rfl, heq]
  cases cs with
  | nil => simpa [isIndexChars] using hdig
  | cons c2 cs' =>
    have hn : 1 ≤ n := by
      by_contra hn0
      have h0 : n = 0 := by omega
      obtain ⟨_, hnil⟩ := hz h0
      cases hnil
    obtain ⟨hl, hr⟩ := hpos hn
    simp [isIndexChars, hl, hr, hall]

theorem segToIndex_natToDec (n : Nat) : segToIndex (natToDec n) = some n := by
  simp only [segToIndex, isIndex_natToDec n, if_true]
  show some (charsToNat (natToDecAux (n + 1) n)) = some n
  rw [charsToNat_natToDecAux (n + 1) n (Nat.lt_succ_self n)]

theorem pathP_weaken {path : List String} {x : String} {q : List String}
    (h : (path ++ [x]).length < q.length ∧ q.take (path ++ [x]).length = path ++ [x]) :
    path.length < q.length ∧ q.take path.length = path := by
  obtain ⟨hlen, htake⟩ := h
  simp only [List.length_append, List.length_singleton] at hlen htake
  constructor
  · omega
  · have h2 : q.take path.length = (q.take (path.length + 1)).take path.length := by
      rw [List.take_take]
      congr 1
      omega
    rw [h2, htake]
    exact List.take_left path [x]

/-- Every violation path strictly extends the path at which the walk was
entered. -/
theorem validate_mem_ext (heap : List ValidationTypeNode) :
    ∀ (v : Value) (vt : Option Nat) (path : List String),
      ∀ q ∈ validate heap v vt path, path.length < q.length ∧ q.take path.length = path := by
  refine validate.induct heap
    (fun v vt path => ∀ q ∈ validate heap v vt path,
      path.length < q.length ∧ q.take path.length = path)
    (fun kvs flds path => ∀ q ∈ validateObj heap kvs flds path,
      path.length < q.length ∧ q.take path.length = path)
    (fun es a path i => ∀ q ∈ validateArr heap es a path i,
      path.length < q.length ∧ q.take path.length = path)
    ?_ ?_ ?_ ?_ ?_ ?_ ?_ ?_ ?_
  · intro v path q hq
    simp [validate] at hq
  · intro path a es ht ih q hq
    rw [show validate heap (Value.arr es) (some a) path = validateArr heap es a path 0 from by
      simp [validate, ht]] at hq
    exact ih q hq
  · intro path a kvs ht ih q hq
    rw [show validate heap (Value.obj kvs) (some a) path =
        validateObj heap kvs (shapeFields heap a) path from by simp [validate, ht]] at hq
    exact ih q hq
  · intro v path a ht hne hno q hq
    cases v with
    | arr es => exact (hne es rfl).elim
    | obj kvs => exact (hno kvs rfl).elim
    | null => simp [validate, ht] at hq
    | undef => simp [validate, ht] at hq
    | bool b => simp [validate, ht] at hq
    | num x => simp [validate, ht] at hq
    | str s => simp [validate, ht] at hq
  · intro v path a ht q hq
    rw [Bool.not_eq_true] at ht
    cases v with
    | arr es => simp [truthy] at ht
    | obj kvs => simp [truthy] at ht
    | null => simp [validate] at hq
    | undef => simp [validate] at hq
    | bool b =>
      simp [truthy] at ht
      subst ht
      simp [validate, truthy] at hq
    | num x =>
      simp [truthy] at ht
      subst ht
      simp [validate, truthy] at hq
    | str s =>
      simp [truthy] at ht
      subst ht
      simp [validate, truthy] at hq
  · intro a path i q hq
    simp [validateArr] at hq
  · intro e rest a path i ih1 ih3 q hq
    simp only [validateArr, List.mem_append] at hq
    cases hq with
    | inl hql => exact pathP_weaken (ih1 q hql)
    | inr hqr => exact ih3 q hqr
  · intro flds path q hq
    simp [validateObj] at hq
  · intro k sv rest flds path sf subPath ih1 ih2 q hq
    simp only [validateObj, List.mem_append] at hq
    rcases hq with (hq | hq) | hq
    · split at hq
      · rw [List.mem_singleton] at hq
        subst hq
        refine ⟨by simp, ?_⟩
        exact List.take_left path [k]
      · simp at hq
    · exact pathP_weaken (ih1 q hq)
    · exact ih2 q hq

/-- Every violation found below an object walk names one of the object's own
keys as its next path segment. -/
theorem validateObj_mem_key (heap : List ValidationTypeNode) :
    ∀ (kvs : List (String × Value)) (flds : Option (List (String × ValidationField)))
      (path : List String) (q : List String), q ∈ validateObj heap kvs flds path →
      ∃ kk sv, (kk, sv) ∈ kvs ∧ q.take (path.length + 1) = path ++ [kk] := by
  intro kvs
  induction kvs with
  | nil => intro flds path q hq; simp [validateObj] at hq
  | cons p rest ih =>
    obtain ⟨k, sv⟩ := p
    intro flds path q hq
    simp only [validateObj, List.mem_append] at hq
    rcases hq with (hq | hq) | hq
    · split at hq
      · rw [List.mem_singleton] at hq
        subst hq
        refine ⟨k, sv, List.mem_cons_self _ _, ?_⟩
        rw [show path.length + 1 = (path ++ [k]).length from by simp]
        exact List.take_length _
      · simp at hq
    · have := (validate_mem_ext heap _ _ _ q hq).2
      refine ⟨k, sv, List.mem_cons_self _ _, ?_⟩
      simpa [List.length_append] using this
    · obtain ⟨kk, sv', hmem, htake⟩ := ih flds path q hq
      exact ⟨kk, sv', List.mem_cons_of_mem _ hmem, htake⟩

/-- The per-key characterisation of one object level of the walk: the key's
own extended path is recorded as a violation exactly when the key is present
with the literal null value and its validation field carries the flag. -/
theorem validateObj_top_iff (heap : List ValidationTypeNode) :
    ∀ (kvs : List (String × Value)) (flds : Option (List (String × ValidationField)))
      (path : List String) (k : String),
      (kvs.map Prod.fst).Nodup →
      ((path ++ [k]) ∈ validateObj heap kvs flds path ↔
        (alookup kvs k = some Value.null ∧
         flagOf (flds.bind fun l => alookup l k) = true)) := by
  intro kvs
  induction kvs with
  | nil =>
    intro flds path k _
    simp [validateObj, alookup]
  | cons p rest ih =>
    obtain ⟨k', sv⟩ := p
    intro flds path k hnd
    rw [List.map_cons, List.nodup_cons] at hnd
    obtain ⟨hknotin, hnd'⟩ := hnd
    simp only [validateObj, List.mem_append]
    by_cases hk : k' = k
    · subst hk
      rw [show alookup ((k', sv) :: rest) k' = some sv from by simp [alookup]]
      constructor
      · rintro ((hq | hq) | hq)
        · cases hcond : (isNullV sv && flagOf (flds.bind fun l => alookup l k')) with
          | false =>
            rw [hcond] at hq
            simp at hq
          | true =>
            rw [Bool.and_eq_true] at hcond
            obtain ⟨h1, h2⟩ := hcond
            refine ⟨?_, h2⟩
            cases sv <;> simp [isNullV] at h1 ⊢
        · have hlen := (validate_mem_ext heap _ _ _ _ hq).1
          simp [List.length_append] at hlen
        · obtain ⟨kk, sv', hmem, htake⟩ := validateObj_mem_key heap rest flds path _ hq
          have hfull : (path ++ [k']).take (path.length + 1) = path ++ [k'] := by
            rw [show path.length + 1 = (path ++ [k']).length from by simp]
            exact List.take_length _
          rw [hfull] at htake
          have hkk : k' = kk := by simpa using htake
          subst hkk
          exact absurd (List.mem_map.mpr ⟨(k', sv'), hmem, rfl⟩) hknotin
      · rintro ⟨hnull, hflag⟩
        injection hnull with hsv
        subst hsv
        left; left
        simp [isNullV, hflag]
    · rw [show alookup ((k', sv) :: rest) k = alookup rest k from by simp [alookup, hk]]
      rw [← ih flds path k hnd']
      constructor
      · rintro ((hq | hq) | hq)
        · split at hq
          · rw [List.mem_singleton] at hq
            have hkeq : k = k' := by simpa using hq
            exact absurd hkeq.symm hk
          · simp at hq
        · have hlen := (validate_mem_ext heap _ _ _ _ hq).1
          simp [List.length_append] at hlen
        · exact hq
      · intro hq
        right
        exact hq

/-- The shape from §8 of the spec: field `a` flagged, field `b` present with
no config; address 1 is an empty nested shape. -/
def heapC2 : List ValidationTypeNode :=
  [⟨some [("a", ⟨some ⟨some true⟩, 1⟩), ("b", ⟨none, 1⟩)]⟩, ⟨none⟩]

/-- C2: during an object walk a violation is recorded at a key's extended
path exactly when that key is present with the literal null value and the
shape's field for that key has `config.nonNullOptional` set; omitted keys and
unflagged keys never yield one.  In particular `{a: null, b: null}` against a
shape flagging only `a` yields exactly the violation at `args.a`, and `{}`
yields none. -/
theorem validate_null_flag_iff :
    (∀ (heap : List ValidationTypeNode) (a : Nat) (kvs : List (String × Value))
       (path : List String) (k : String),
      (kvs.map Prod.fst).Nodup →
      ((path ++ [k]) ∈ validate heap (Value.obj kvs) (some a) path ↔
        (alookup kvs k = some Value.null ∧
         flagOf ((shapeFields heap a).bind fun l => alookup l k) = true))) ∧
    validate heapC2 (Value.obj [("a", Value.null), ("b", Value.null)]) (some 0) ["args"] =
      [["args", "a"]] ∧
    validate heapC2 (Value.obj []) (some 0) ["args"] = [] := by
  refine ⟨?_, ?_, ?_⟩
  · intro heap a kvs path k hnd
    rw [show validate heap (Value.obj kvs) (some a) path =
        validateObj heap kvs (shapeFields heap a) path from by simp [validate, truthy]]
    exact validateObj_top_iff heap kvs (shapeFields heap a) path k hnd
  · simp [validate, validateObj, validateArr, truthy, shapeFields, nth, alookup, isNullV, flagOf]
  · simp [validate, validateObj, truthy]

theorem validate_null_flag_iff_witness :
    ([("a", Value.null), ("b", Value.null)].map Prod.fst).Nodup ∧
    ((["args"] ++ ["a"]) ∈
        validate heapC2 (Value.obj [("a", Value.null), ("b", Value.null)]) (some 0) ["args"] ↔
      (alookup [("a", Value.null), ("b", Value.null)] "a" = some Value.null ∧
       flagOf ((shapeFields heapC2 0).bind fun l => alookup l "a") = true)) :=
  ⟨by decide,
   validate_null_flag_iff.1 heapC2 0 [("a", Value.null), ("b", Value.null)] ["args"] "a"
     (by decide)⟩

/-- C10: only the literal null marker triggers a violation.  A present key
bound to any other value - `undefined`, `false`, `0`, the empty string, or
any non-null value - records no violation even when its field is flagged,
and falsy non-null values are never descended into. -/
theorem validate_only_null_violates :
    (∀ (heap : List ValidationTypeNode) (a : Nat) (kvs : List (String × Value))
       (path : List String) (k : String) (v : Value),
      (kvs.map Prod.fst).Nodup →
      alookup kvs k = some v → v ≠ Value.null →
      (path ++ [k]) ∉ validate heap (Value.obj kvs) (some a) path) ∧
    (∀ (heap : List ValidationTypeNode) (vt : Option Nat) (path : List String),
      validate heap Value.undef vt path = [] ∧
      validate heap (Value.bool false) vt path = [] ∧
      validate heap (Value.num 0) vt path = [] ∧
      validate heap (Value.str "") vt path = []) := by
  constructor
  · intro heap a kvs path k v hnd hlook hne hmem
    rw [show validate heap (Value.obj kvs) (some a) path =
        validateObj heap kvs (shapeFields heap a) path from by simp [validate, truthy]] at hmem
    have hc := (validateObj_top_iff heap kvs (shapeFields heap a) path k hnd).mp hmem
    rw [hlook] at hc
    injection hc.1 with hv
    exact hne hv
  · intro heap vt path
    cases vt with
    | none => exact ⟨by simp [validate], by simp [validate], by simp [validate], by simp [validate]⟩
    | some a =>
      exact ⟨by simp [validate, truthy], by simp [validate, truthy],
        by simp [validate, truthy], by simp [validate, truthy]⟩

theorem validate_only_null_violates_witness :
    (["args"] ++ ["a"]) ∉
      validate heapC2 (Value.obj [("a", Value.str "x")]) (some 0) ["args"] :=
  validate_only_null_violates.1 heapC2 0 [("a", Value.str "x")] ["args"] "a" (Value.str "x")
    (by decide) rfl (fun h => Value.noConfusion h)

theorem validateArr_append_eq (heap : List ValidationTypeNode) (a : Nat) (p : List String) :
    ∀ (xs ys : List Value) (i : Nat),
      validateArr heap (xs ++ ys) a p i =
        validateArr heap xs a p i ++ validateArr heap ys a p (i + xs.length) := by
  intro xs
  induction xs with
  | nil => intro ys i; simp [validateArr]
  | cons e rest ih =>
    intro ys i
    show validateArr heap (e :: (rest ++ ys)) a p i = _
    simp only [validateArr, List.length_cons]
    rw [ih ys (i + 1), List.append_assoc]
    have hidx : i + 1 + rest.length = i + (rest.length + 1) := by omega
    rw [hidx]

theorem validateArr_enumFrom (heap : List ValidationTypeNode) (a : Nat) (p : List String) :
    ∀ (es : List Value) (i : Nat),
      validateArr heap es a p i =
        (es.enumFrom i).flatMap fun pr => validate heap pr.2 (some a) (p ++ [natToDec pr.1]) := by
  intro es
  induction es with
  | nil => intro i; simp [validateArr]
  | cons e rest ih =>
    intro i
    rw [List.enumFrom_cons, List.flatMap_cons]
    simp only [validateArr, ih (i + 1)]

/-- C7: a list value is validated by applying the same shape to every element
with the path extended by the element's decimal index; validating
`[{a: null}, {a: "x"}]` against the list-of-object shape yields exactly the
violation at `args.0.a`. -/
theorem validate_list_elementwise :
    (∀ (heap : List ValidationTypeNode) (a : Nat) (es : List Value) (p : List String),
      validate heap (Value.arr es) (some a) p =
        es.enum.flatMap fun pr => validate heap pr.2 (some a) (p ++ [natToDec pr.1])) ∧
    validate heapC2 (Value.arr [Value.obj [("a", Value.null)], Value.obj [("a", Value.str "x")]])
      (some 0) ["args"] = [["args", "0", "a"]] := by
  constructor
  · intro heap a es p
    rw [show validate heap (Value.arr es) (some a) p = validateArr heap es a p 0 from by
      simp [validate, truthy]]
    exact validateArr_enumFrom heap a p es 0
  · simp [validate, validateObj, validateArr, truthy, shapeFields, nth, alookup, isNullV,
      flagOf, natToDec, natToDecAux, digitChar]

theorem assocSet_length_ge : ∀ (es : List (String × EV)) (k : String) (v : EV),
    es.length ≤ (assocSet es k v).length := by
  intro es
  induction es with
  | nil => intro k v; simp [assocSet]
  | cons p rest ih =>
    intro k v
    obtain ⟨k', v'⟩ := p
    simp only [assocSet]
    split
    · simp
    · simpa using ih k v

theorem setNull_obj_shape : ∀ (p : List String) (es : List (String × EV)),
    ∃ es', setNull (EV.obj es) p = EV.obj es' ∧ es.length ≤ es'.length := by
  intro p es
  match p with
  | [] => exact ⟨es, rfl, Nat.le_refl _⟩
  | [seg] => exact ⟨assocSet es seg EV.null, rfl, assocSet_length_ge es seg EV.null⟩
  | seg :: seg2 :: rest =>
    simp only [setNull, evAssign]
    exact ⟨_, rfl, assocSet_length_ge _ _ _⟩

theorem foldl_setNull_obj : ∀ (vs : List (List String)) (es : List (String × EV)),
    ∃ es', List.foldl setNull (EV.obj es) vs = EV.obj es' ∧ es.length ≤ es'.length := by
  intro vs
  induction vs with
  | nil => intro es; exact ⟨es, rfl, Nat.le_refl _⟩
  | cons q rest ih =>
    intro es
    obtain ⟨es1, h1, hle1⟩ := setNull_obj_shape q es
    obtain ⟨es', h2, hle2⟩ := ih es1
    rw [List.foldl_cons, h1]
    exact ⟨es', h2, Nat.le_trans hle1 hle2⟩

theorem rootKeyCount_buildErrorMap_pos (q : List String) (rest : List (List String))
    (hq : q ≠ []) : 1 ≤ rootKeyCount (buildErrorMap (q :: rest)) := by
  unfold buildErrorMap
  rw [List.foldl_cons]
  have h1 : ∃ es1, setNull (EV.obj []) q = EV.obj es1 ∧ 1 ≤ es1.length := by
    match q with
    | [] => exact absurd rfl hq
    | [seg] => exact ⟨[(seg, EV.null)], rfl, by simp⟩
    | seg :: seg2 :: r =>
      simp only [setNull, evAssign, assocSet]
      exact ⟨_, rfl, by simp⟩
  obtain ⟨es1, h1, hle1⟩ := h1
  rw [h1]
  obtain ⟨es', h2, hle2⟩ := foldl_setNull_obj rest es1
  rw [h2]
  simp only [rootKeyCount]
  omega

/-- Violation paths of a top-level walk are never empty. -/
theorem validate_args_paths_ne_nil (heap : List ValidationTypeNode) (args : Value) (a : Nat) :
    ∀ q ∈ validate heap args (some a) ["args"], q ≠ [] := by
  intro q hq hnil
  have := (validate_mem_ext heap args (some a) ["args"] q hq).1
  rw [hnil] at this
  simp at this

/-- C3: the installed wrapper throws exactly when the validation walk found a
violation, the thrown message embeds the serialization of the error map built
from every violation of that single pass, and an empty violation list leads
to invoking the continuation (never both). -/
theorem fieldResolve_throw_iff :
    ∀ {α γ δ ρ : Type} (heap : List ValidationTypeNode) (a : Nat) (root : α) (args : Value)
      (ctx : γ) (info : δ) (next : α → Value → γ → δ → ρ),
      ((∃ msg, fieldResolve heap a root args ctx info next = Except.error msg) ↔
        validate heap args (some a) ["args"] ≠ []) ∧
      (fieldResolve heap a root args ctx info next = Except.ok (next root args ctx info) ↔
        validate heap args (some a) ["args"] = []) ∧
      (validate heap args (some a) ["args"] ≠ [] →
        fieldResolve heap a root args ctx info next =
          Except.error ("following arguments violated nonNullOptional constrain: " ++
            stringifyEV (buildErrorMap (validate heap args (some a) ["args"])))) := by
  intro α γ δ ρ heap a root args ctx info next
  cases hvs : validate heap args (some a) ["args"] with
  | nil =>
    have hok : fieldResolve heap a root args ctx info next = Except.ok (next root args ctx info) := by
      simp [fieldResolve, hvs, buildErrorMap, rootKeyCount]
    refine ⟨?_, ?_, ?_⟩
    · constructor
      · rintro ⟨msg, hmsg⟩
        rw [hok] at hmsg
        cases hmsg
      · intro hne
        exact absurd rfl hne
    · exact ⟨fun _ => rfl, fun _ => hok⟩
    · intro hne
      exact absurd rfl hne
  | cons q rest =>
    have hq : q ≠ [] := validate_args_paths_ne_nil heap args a q (hvs ▸ List.mem_cons_self _ _)
    have hpos := rootKeyCount_buildErrorMap_pos q rest hq
    have herr : fieldResolve heap a root args ctx info next =
        Except.error ("following arguments violated nonNullOptional constrain: " ++
          stringifyEV (buildErrorMap (q :: rest))) := by
      simp only [fieldResolve, hvs]
      rw [if_pos (by omega)]
    refine ⟨?_, ?_, ?_⟩
    · exact ⟨fun _ => by simp, fun _ => ⟨_, herr⟩⟩
    · constructor
      · intro hok
        rw [herr] at hok
        cases hok
      · intro hnil
        cases hnil
    · intro _
      exact herr

theorem fieldResolve_throw_iff_witness :
    fieldResolve heapC2 0 (0 : Nat) (Value.obj [("a", Value.null)]) (0 : Nat) (0 : Nat)
        (fun _ args _ _ => args) =
      Except.error ("following arguments violated nonNullOptional constrain: " ++
        stringifyEV (buildErrorMap
          (validate heapC2 (Value.obj [("a", Value.null)]) (some 0) ["args"]))) :=
  (fieldResolve_throw_iff heapC2 0 (0 : Nat) (Value.obj [("a", Value.null)]) (0 : Nat) (0 : Nat)
      (fun _ args _ _ => args)).2.2
    (by simp [validate, validateObj, truthy, shapeFields, nth, alookup, isNullV, flagOf])

/-- C8: the wrapper never mutates the value tree - `validate` only reads the
arguments - and when the walk finds no violation the continuation is invoked
with the original root, args, context and info objects. -/
theorem fieldResolve_preserves_args :
    ∀ {α γ δ ρ : Type} (heap : List ValidationTypeNode) (a : Nat) (root : α) (args : Value)
      (ctx : γ) (info : δ) (next : α → Value → γ → δ → ρ),
      validate heap args (some a) ["args"] = [] →
      fieldResolve heap a root args ctx info next = Except.ok (next root args ctx info) := by
  intro α γ δ ρ heap a root args ctx info next h
  simp [fieldResolve, h, buildErrorMap, rootKeyCount]

theorem fieldResolve_preserves_args_witness :
    fieldResolve heapC2 0 (7 : Nat) (Value.obj [("a", Value.str "x")]) (8 : Nat) (9 : Nat)
        (fun root args ctx info => (root, args, ctx, info)) =
      Except.ok (7, Value.obj [("a", Value.str "x")], 8, 9) :=
  fieldResolve_preserves_args heapC2 0 7 (Value.obj [("a", Value.str "x")]) 8 9
    (fun root args ctx info => (root, args, ctx, info))
    (by simp [validate, validateObj, truthy, shapeFields, nth, alookup, isNullV, flagOf])

/-- `i` comma-terminated `null` placeholders, as `JSON.stringify` renders the
holes of a sparse array prefix. -/
def nullCommas : Nat → String
  | 0 => ""
  | i + 1 => "null," ++ nullCommas i

theorem setNull_args_index (i : Nat) :
    setNull (EV.obj []) ["args", natToDec i, "a"] =
      EV.obj [("args", EV.arr (List.replicate i none ++ [some (EV.obj [("a", EV.null)])]))] := by
  simp [setNull, evGet, evAssign, alookup, nth, arrSet, assocSet, isContainer,
    isIndex_natToDec, segToIndex_natToDec, (by decide : isIndex "a" = false)]

theorem stringifyElems_cons_ne (x : Option EV) (y : Option EV) (ys : List (Option EV)) :
    stringifyElems (x :: y :: ys) = stringifyElem x ++ "," ++ stringifyElems (y :: ys) := by
  simp [stringifyElems]

theorem stringifyElems_replicate (i : Nat) (X : EV) :
    stringifyElems (List.replicate i none ++ [some X]) = nullCommas i ++ stringifyEV X := by
  induction i with
  | zero => simp [stringifyElems, stringifyElem, nullCommas]
  | succ j ih =>
    rw [show List.replicate (j + 1) none ++ [some X] =
        none :: (List.replicate j none ++ [some X]) from by simp [List.replicate]]
    cases hrep : List.replicate j none ++ [some X] with
    | nil => simp at hrep
    | cons y ys =>
      rw [stringifyElems_cons_ne, ← hrep, ih]
      simp [nullCommas, stringifyElem, String.append_assoc]

theorem stringify_report (i : Nat) :
    stringifyEV (EV.obj [("args",
        EV.arr (List.replicate i none ++ [some (EV.obj [("a", EV.null)])]))]) =
      "\x7b\"args\":[" ++ nullCommas i ++ "\x7b\"a\":null\x7d]\x7d" := by
  simp only [stringifyEV, stringifyEntries, quote, stringifyElems_replicate]
  simp [String.append_assoc]
  rw [← String.append_assoc]
  rw [(by decide : ("\x7b" : String) ++ "\"args\":" = "\x7b\"args\":")]
  rw [← String.append_assoc]
  rw [(by decide : ("\x7b\"args\":" : String) ++ "[" = "\x7b\"args\":[")]

theorem validate_okElem (p : List String) :
    validate heapC2 (Value.obj [("a", Value.str "x")]) (some 0) p = [] := by
  simp [validate, validateObj, truthy, shapeFields, nth, alookup, isNullV, flagOf,
    (by decide : truthy (Value.str "x") = true)]

theorem validate_badElem (p : List String) :
    validate heapC2 (Value.obj [("a", Value.null)]) (some 0) p = [p ++ ["a"]] := by
  simp [validate, validateObj, truthy, shapeFields, nth, alookup, isNullV, flagOf]

theorem validateArr_replicateOk :
    ∀ (i j : Nat) (p : List String),
      validateArr heapC2 (List.replicate i (Value.obj [("a", Value.str "x")])) 0 p j = [] := by
  intro i
  induction i with
  | zero => intro j p; simp [validateArr]
  | succ n ih =>
    intro j p
    rw [show List.replicate (n + 1) (Value.obj [("a", Value.str "x")]) =
        Value.obj [("a", Value.str "x")] :: List.replicate n (Value.obj [("a", Value.str "x")])
      from by simp [List.replicate]]
    simp only [validateArr]
    rw [validate_okElem, ih]
    simp

theorem validate_listWithHole (i : Nat) :
    validate heapC2 (Value.arr (List.replicate i (Value.obj [("a", Value.str "x")]) ++
        [Value.obj [("a", Value.null)]])) (some 0) ["args"] =
      [["args", natToDec i, "a"]] := by
  rw [show validate heapC2 (Value.arr (List.replicate i (Value.obj [("a", Value.str "x")]) ++
        [Value.obj [("a", Value.null)]])) (some 0) ["args"] =
      validateArr heapC2 (List.replicate i (Value.obj [("a", Value.str "x")]) ++
        [Value.obj [("a", Value.null)]]) 0 ["args"] 0 from by simp [validate, truthy]]
  rw [validateArr_append_eq, validateArr_replicateOk]
  simp only [List.length_replicate, List.nil_append, Nat.zero_add]
  simp only [validateArr]
  rw [validate_badElem]
  simp

/-- C9: when the only violation of a validated list sits at element index
`i ≥ 1`, the error map represents the list level as an array whose entries
below `i` are holes, and the serialized report in the thrown message renders
a `null` placeholder for each unviolated lower index followed by the real
terminal marker at index `i`. -/
theorem list_violation_holes_serialize (i : Nat) (_hi : 1 ≤ i) :
    validate heapC2 (Value.arr (List.replicate i (Value.obj [("a", Value.str "x")]) ++
        [Value.obj [("a", Value.null)]])) (some 0) ["args"] = [["args", natToDec i, "a"]] ∧
    buildErrorMap [["args", natToDec i, "a"]] =
      EV.obj [("args", EV.arr (List.replicate i none ++ [some (EV.obj [("a", EV.null)])]))] ∧
    stringifyEV (buildErrorMap [["args", natToDec i, "a"]]) =
      "\x7b\"args\":[" ++ nullCommas i ++ "\x7b\"a\":null\x7d]\x7d" ∧
    (∀ (α γ δ ρ : Type) (root : α) (ctx : γ) (info : δ) (next : α → Value → γ → δ → ρ),
      fieldResolve heapC2 0 root
          (Value.arr (List.replicate i (Value.obj [("a", Value.str "x")]) ++
            [Value.obj [("a", Value.null)]])) ctx info next =
        Except.error ("following arguments violated nonNullOptional constrain: " ++
          ("\x7b\"args\":[" ++ nullCommas i ++ "\x7b\"a\":null\x7d]\x7d"))) := by
  have hbuild : buildErrorMap [["args", natToDec i, "a"]] =
      EV.obj [("args", EV.arr (List.replicate i none ++ [some (EV.obj [("a", EV.null)])]))] := by
    rw [show buildErrorMap [["args", natToDec i, "a"]] =
        setNull (EV.obj []) ["args", natToDec i, "a"] from rfl]
    exact setNull_args_index i
  have hstr : stringifyEV (buildErrorMap [["args", natToDec i, "a"]]) =
      "\x7b\"args\":[" ++ nullCommas i ++ "\x7b\"a\":null\x7d]\x7d" := by
    rw [hbuild]
    exact stringify_report i
  refine ⟨validate_listWithHole i, hbuild, hstr, ?_⟩
  intro α γ δ ρ root ctx info next
  simp only [fieldResolve, validate_listWithHole i, hbuild]
  rw [if_pos (by simp [rootKeyCount])]
  rw [← hbuild, hstr]

theorem list_violation_holes_serialize_witness :
    validate heapC2 (Value.arr (List.replicate 2 (Value.obj [("a", Value.str "x")]) ++
        [Value.obj [("a", Value.null)]])) (some 0) ["args"] = [["args", natToDec 2, "a"]] ∧
    stringifyEV (buildErrorMap [["args", natToDec 2, "a"]]) =
      "\x7b\"args\":[" ++ nullCommas 2 ++ "\x7b\"a\":null\x7d]\x7d" :=
  ⟨(list_violation_holes_serialize 2 (by decide)).1,
   (list_violation_holes_serialize 2 (by decide)).2.2.1⟩

/-- `R` is a set of type names closed under field references within which no
input-object field carries the `nonNullOptional` flag: no constrained field
exists anywhere beneath a type of `R`. -/
def unconstrainedIn (sch : Schema) (R : List String) : Bool :=
  sch.all fun p =>
    !(R.contains p.1) ||
      (match p.2 with
       | TypeDef.inputObject fds =>
         fds.all fun q => (q.2.nonNullOptional != some true) && R.contains (baseName q.2.type)
       | TypeDef.scalar => true)

/-- Every cached name of `R` points at a shape object without fields.  This
holds vacuously for a fresh plugin state and is maintained while compiling
types whose reachable names all lie in an unconstrained `R`, even when the
cache already holds shapes of other, constrained types. -/
def noneOnR (R : List String) (st : St) : Prop :=
  ∀ n, R.contains n = true → ∀ a, alookup st.cache n = some a →
    ((nth st.heap a).bind ValidationTypeNode.fields) = none

theorem nth_append_elim {α : Type} :
    ∀ (l : List α) (x y : α) (i : Nat),
      nth (l ++ [x]) i = some y → nth l i = some y ∨ y = x := by
  intro l
  induction l with
  | nil =>
    intro x y i h
    cases i with
    | zero =>
      injection h with h
      exact Or.inr h.symm
    | succ j => simp [nth] at h
  | cons z zs ih =>
    intro x y i h
    cases i with
    | zero => exact Or.inl h
    | succ j => exact ih x y j h

theorem unconstrained_lookup {sch : Schema} {R : List String} {n : String}
    {fds : List (String × FieldDef)} (hu : unconstrainedIn sch R = true)
    (hn : R.contains n = true) (hl : alookup sch n = some (TypeDef.inputObject fds)) :
    ∀ fd ∈ fds, fd.2.nonNullOptional ≠ some true ∧ R.contains (baseName fd.2.type) = true := by
  intro fd hfd
  have hmem := alookup_mem sch n _ hl
  have hentry := List.all_eq_true.mp hu _ hmem
  simp only [hn] at hentry
  rw [Bool.or_eq_true] at hentry
  cases hentry with
  | inl h => simp at h
  | inr h =>
    have := List.all_eq_true.mp h fd hfd
    rw [Bool.and_eq_true] at this
    exact ⟨bne_iff_ne.mp this.1, this.2⟩

theorem flaggedFields_eq_nil {fds : List (String × FieldDef)}
    (h : ∀ fd ∈ fds, fd.2.nonNullOptional ≠ some true) : flaggedFields fds = [] := by
  unfold flaggedFields
  rw [List.filter_eq_nil_iff]
  intro fd hfd
  have := h fd hfd
  cases hv : fd.2.nonNullOptional with
  | none => simp
  | some b =>
    cases b with
    | false => simp
    | true => exact absurd hv this

theorem getVT_noneOnR (sch : Schema) (R : List String)
    (hu : unconstrainedIn sch R = true) :
    ∀ (fuel : Nat) (t : TypeRef) (st : St) (a : Nat) (st' : St),
      R.contains (baseName t) = true → noneOnR R st →
      getVT sch fuel t st = some (a, st') → noneOnR R st' := by
  intro fuel
  induction fuel with
  | zero => intro t st a st' _ _ h; simp [getVT] at h
  | succ f ih =>
    intro t st a st' hR hH h
    cases t with
    | named n =>
      simp only [getVT] at h
      split at h
      · cases h
        exact hH
      · rename_i hmiss
        have hcons : noneOnR R ⟨(n, st.heap.length) :: st.cache, st.heap ++ [⟨none⟩]⟩ := by
          intro m hm a' ha'
          simp only [alookup] at ha'
          split at ha'
          · injection ha' with ha''
            subst ha''
            rw [show nth (st.heap ++ [(⟨none⟩ : ValidationTypeNode)]) st.heap.length =
                some ⟨none⟩ from nth_append_self _ _]
            rfl
          · have hold := hH m hm a' ha'
            cases hn2 : nth (st.heap ++ [(⟨none⟩ : ValidationTypeNode)]) a' with
            | none => rfl
            | some nd =>
              rcases nth_append_elim _ _ _ _ hn2 with hold2 | hx
              · rw [hold2] at hold
                exact hold
              · subst hx
                rfl
        split at h
        · rename_i fds' heq
          have hflag : flaggedFields fds' = [] :=
            flaggedFields_eq_nil fun fd hfd =>
              (unconstrained_lookup hu (by simpa [baseName] using hR) heq fd hfd).1
          rw [hflag] at h
          cases h
          exact hcons
        · cases h
          exact hcons
    | list t' => exact ih _ st a st' (by simpa [baseName] using hR) hH h
    | nonNull t' => exact ih _ st a st' (by simpa [baseName] using hR) hH h

theorem collectArgFields_unconstrained (sch : Schema) (R : List String) (fuel : Nat)
    (hu : unconstrainedIn sch R = true) :
    ∀ (args : List (String × TypeRef)) (st : St) (fl : List (String × ValidationField))
      (st' : St),
      (∀ p ∈ args, R.contains (baseName p.2) = true) → noneOnR R st →
      collectArgFields sch fuel args st = some (fl, st') → fl = [] ∧ noneOnR R st' := by
  intro args
  induction args with
  | nil =>
    intro st fl st' _ hH h
    simp only [collectArgFields, Option.some.injEq, Prod.mk.injEq] at h
    exact ⟨h.1.symm, h.2 ▸ hH⟩
  | cons p rest ih =>
    obtain ⟨k, t⟩ := p
    intro st fl st' hR hH h
    simp only [collectArgFields] at h
    split at h
    · cases h
    · rename_i a1 st1 hvt
      have hH1 : noneOnR R st1 :=
        getVT_noneOnR sch R hu fuel t st a1 st1
          (hR (k, t) (List.mem_cons_self _ _)) hH hvt
      split at h
      · cases h
      · rename_i fl1 st2 hcf
        have hrest := ih st1 fl1 st2
          (fun p hp => hR p (List.mem_cons_of_mem _ hp)) hH1 hcf
        have hbound : alookup st1.cache (baseName t) = some a1 :=
          getVT_cache_binds sch fuel t st a1 st1 hvt
        have hnone := hH1 (baseName t) (hR (k, t) (List.mem_cons_self _ _)) a1 hbound
        have hkeep : ((nth st1.heap a1).bind ValidationTypeNode.fields).isSome = false := by
          rw [hnone]
          rfl
        simp only [hkeep] at h
        simp only [Option.some.injEq, Prod.mk.injEq] at h
        obtain ⟨hfl, hst⟩ := h
        rw [← hfl, ← hst]
        simpa using hrest

/-- C6: an operation whose declared arguments contain no constrained field
anywhere beneath them gets `undefined` from `createArgsValidationType`, and
`onCreateFieldResolver` consequently installs no wrapping resolver - request
execution for that operation performs no validation, allocates no violation
map, and never errors. -/
theorem createArgs_skip_unconstrained :
    ∀ (sch : Schema) (R : List String) (fuel : Nat) (args : List (String × TypeRef)) (st : St)
      (o : Option Nat) (st' : St),
      unconstrainedIn sch R = true →
      (∀ p ∈ args, R.contains (baseName p.2) = true) →
      noneOnR R st →
      createArgsValidationType sch fuel (some args) st = some (o, st') →
      o = none ∧ onCreateFieldResolver sch fuel (some args) st = some (none, st') := by
  intro sch R fuel args st o st' hu hR hH h
  have hc := h
  simp only [createArgsValidationType] at h
  split at h
  · cases h
  · rename_i st1 hcf
    cases h
    exact ⟨rfl, hc⟩
  · rename_i f0 fs0 st1 hcf
    have := (collectArgFields_unconstrained sch R fuel hu args st _ _ hR hH hcf).1
    cases this

/-- Arguments of an operation with no constrained field anywhere beneath. -/
def sch6 : Schema :=
  [("A", TypeDef.inputObject
    [("f", ⟨none, TypeRef.named "A"⟩), ("g", ⟨some false, TypeRef.named "Str"⟩)])]

theorem createArgs_skip_unconstrained_witness :
    onCreateFieldResolver sch6 10 (some [("input", TypeRef.nonNull (TypeRef.named "A"))])
        ⟨[], []⟩ = some (none, ⟨[("A", 0)], [⟨none⟩]⟩) :=
  (createArgs_skip_unconstrained sch6 ["A", "Str"] 10
    [("input", TypeRef.nonNull (TypeRef.named "A"))] ⟨[], []⟩ none ⟨[("A", 0)], [⟨none⟩]⟩
    (by decide) (by decide) (fun n _ a ha => by simp [alookup] at ha) (by decide)).2
